import Mathlib

/-!
Verification of the fraud-risk-simulation core (`fraud_risk_sim`):
a shallow embedding over ℚ of `simulation.run_monte_carlo`,
`metrics.kpis`, `sensitivity.tornado_data` and `scenarios.lhs_samples`,
followed by theorems settling the specified properties.

Floats are modelled by exact rationals; the numpy random generator is
modelled by an abstract deterministic draw environment (`NumEnv`): for a
fixed seed, `np.random.default_rng(seed)` is a pure function of the seed,
so each draw primitive becomes a function of the seed and its
distribution parameters.  `np.exp` is carried as an uninterpreted
function `expQ` of the environment (no claim depends on its values).
Python dictionaries mutated through references (in `tornado_data`) are
modelled by an explicit store of parameter records.
-/

/-- Python `int(x)` on a float: truncation toward zero. -/
def pyInt (q : ℚ) : ℤ := if 0 ≤ q then ⌊q⌋ else -⌊-q⌋

/-- `np.clip(x, 0.0, 1.0)`. -/
def clip01 (q : ℚ) : ℚ := min 1 (max 0 q)

/-- `arr.mean()` for a 1-d array, as a rational (list must be nonempty for
this to reflect numpy; on `[]` numpy yields `nan` with a warning). -/
def listMean (l : List ℚ) : ℚ := l.sum / (l.length : ℚ)

/-- The eight keys of the parameter dictionary built by `make_baseline`. -/
inductive PKey where
  | n_transactions
  | avg_ticket
  | base_fraud_rate
  | detection_rate
  | false_positive_rate
  | sev_mu
  | sev_sigma
  | monthly_loss_budget
deriving DecidableEq, Repr

/-- The parameter dictionary (`params: dict`) with its eight entries,
values modelled as rationals. -/
structure Params where
  n_transactions : ℚ
  avg_ticket : ℚ
  base_fraud_rate : ℚ
  detection_rate : ℚ
  false_positive_rate : ℚ
  sev_mu : ℚ
  sev_sigma : ℚ
  monthly_loss_budget : ℚ
deriving DecidableEq, Repr

/-- Dictionary read `params[k]`. -/
def Params.get (p : Params) : PKey → ℚ
  | .n_transactions => p.n_transactions
  | .avg_ticket => p.avg_ticket
  | .base_fraud_rate => p.base_fraud_rate
  | .detection_rate => p.detection_rate
  | .false_positive_rate => p.false_positive_rate
  | .sev_mu => p.sev_mu
  | .sev_sigma => p.sev_sigma
  | .monthly_loss_budget => p.monthly_loss_budget

/-- Dictionary write `params[k] = v`. -/
def Params.set (p : Params) : PKey → ℚ → Params
  | .n_transactions, v => { p with n_transactions := v }
  | .avg_ticket, v => { p with avg_ticket := v }
  | .base_fraud_rate, v => { p with base_fraud_rate := v }
  | .detection_rate, v => { p with detection_rate := v }
  | .false_positive_rate, v => { p with false_positive_rate := v }
  | .sev_mu, v => { p with sev_mu := v }
  | .sev_sigma, v => { p with sev_sigma := v }
  | .monthly_loss_budget, v => { p with monthly_loss_budget := v }

/-- The deterministic draw environment modelling `np.random.default_rng`
for a given seed, together with the float `exp`.  `poissonDraws s lam n`
is the array `rng.poisson(lam, size=n)` produced by the generator seeded
with `s`; `normalDraws s mu sigma n` is `rng.normal(mu, sigma, size=n)`
from the same generator after its Poisson call; `shuffleQ s i l` is the
result of the `i`-th `rng.shuffle` call applied to `l`.  The bundled laws
are facts of the real sampler: arrays have the requested size, a
Poisson(0) sample is identically zero, and a shuffle permutes its input. -/
structure NumEnv where
  poissonDraws : ℤ → ℚ → ℕ → List ℕ
  normalDraws : ℤ → ℚ → ℚ → ℕ → List ℚ
  shuffleQ : ℤ → ℕ → List ℚ → List ℚ
  expQ : ℚ → ℚ
  poisson_length : ∀ s lam n, (poissonDraws s lam n).length = n
  normal_length : ∀ s mu sigma n, (normalDraws s mu sigma n).length = n
  poisson_zero : ∀ s n, ∀ x ∈ poissonDraws s 0 n, x = 0
  shuffle_perm : ∀ s i l, (shuffleQ s i l).Perm l

/-- The process-wide mutable randomness state (OS entropy / global
generator) that `np.random.default_rng` falls back to when called with no
seed. -/
structure World where
  globalEntropy : ℤ
deriving DecidableEq, Repr

/-- `np.random.default_rng(seed)`: with an explicit seed the generator is
a pure function of that seed; only `default_rng(None)` touches the
process-wide state. -/
def default_rng (seedOpt : Option ℤ) (w : World) : ℤ :=
  match seedOpt with
  | some s => s
  | none => w.globalEntropy

/-- `np.quantile(a, 0.95)` with the default linear-interpolation method:
sort ascending, let `h = 0.95·(len−1)`, and interpolate between the
entries at `⌊h⌋` and `⌊h⌋+1`. -/
def np_quantile95 (l : List ℚ) : ℚ :=
  let s := l.mergeSort (fun a b => decide (a ≤ b))
  let h : ℚ := (19 / 20) * ((l.length : ℚ) - 1)
  let j : ℕ := (⌊h⌋).toNat
  let g : ℚ := h - (j : ℚ)
  s.getD j 0 + g * (s.getD (j + 1) 0 - s.getD j 0)

/-- The dictionary returned by `run_monte_carlo`. -/
structure SimResult where
  losses : List ℚ
  mean_loss : ℚ
  var_95 : ℚ
  cvar_95 : ℚ
  n_fraud_mean : ℚ
deriving DecidableEq, Repr

/-- The per-path undetected-incident count `int(nf * frac_undetected)`. -/
def undetOf (u : ℚ) (nf : ℕ) : ℕ := (pyInt ((nf : ℚ) * u)).toNat

/-- The per-path aggregation loop of `run_monte_carlo`: walk the fraud
counts with a cursor into the severity pool; a path with a positive
undetected count consumes that many pool entries and sums them, a path
with zero undetected count contributes loss `0.0` and leaves the cursor
in place. -/
def lossLoop (sev : List ℚ) (u : ℚ) : List ℕ → ℕ → List ℚ
  | [], _ => []
  | nf :: rest, cursor =>
    let undet := undetOf u nf
    if 0 < undet then
      ((sev.drop cursor).take undet).sum :: lossLoop sev u rest (cursor + undet)
    else
      (0 : ℚ) :: lossLoop sev u rest cursor

/-- `simulation.run_monte_carlo(params, seed, n_paths)`.  `none` models a
raised exception: a negative Poisson mean or a negative normal scale is
rejected by numpy, and `np.quantile` of an empty loss vector
(`n_paths = 0`) raises. -/
def run_monte_carlo (M : NumEnv) (w : World) (params : Params) (seed : ℤ)
    (n_paths : ℕ) : Option SimResult :=
  let rng : ℤ := default_rng (some seed) w
  let n_tx := params.n_transactions
  let p_fraud := params.base_fraud_rate
  let p_detect := params.detection_rate
  let sev_mu := params.sev_mu
  let sev_sigma := params.sev_sigma
  let lam := n_tx * p_fraud
  if lam < 0 then none
  else
    let n_fraud := M.poissonDraws rng lam n_paths
    let frac_undetected := clip01 (1 - p_detect)
    let total_draws : ℤ := pyInt (((n_fraud.sum : ℚ)) * frac_undetected + 1)
    if total_draws ≤ 0 then
      if n_paths = 0 then none
      else
        let losses := List.replicate n_paths (0 : ℚ)
        some { losses := losses
               mean_loss := listMean losses
               var_95 := np_quantile95 losses
               cvar_95 := 0
               n_fraud_mean := listMean (n_fraud.map (fun k : ℕ => (k : ℚ))) }
    else if sev_sigma < 0 then none
    else
      let severities := (M.normalDraws rng sev_mu sev_sigma total_draws.toNat).map M.expQ
      let losses := lossLoop severities frac_undetected n_fraud 0
      if n_paths = 0 then none
      else
        let var_95 := np_quantile95 losses
        let tail := losses.filter (fun x => decide (var_95 ≤ x))
        let cvar_95 := if tail.length ≠ 0 then listMean tail else 0
        some { losses := losses
               mean_loss := listMean losses
               var_95 := var_95
               cvar_95 := cvar_95
               n_fraud_mean := listMean (n_fraud.map (fun k : ℕ => (k : ℚ))) }

/-- The number of severities a `run_monte_carlo` call draws, read off the
same code path: the size argument of its single `rng.normal` call, `0`
when the call never reaches that draw. -/
def severityDrawCount (M : NumEnv) (w : World) (params : Params) (seed : ℤ)
    (n_paths : ℕ) : ℕ :=
  let rng : ℤ := default_rng (some seed) w
  let lam := params.n_transactions * params.base_fraud_rate
  if lam < 0 then 0
  else
    let n_fraud := M.poissonDraws rng lam n_paths
    let frac_undetected := clip01 (1 - params.detection_rate)
    let total_draws : ℤ := pyInt (((n_fraud.sum : ℚ)) * frac_undetected + 1)
    if total_draws ≤ 0 then 0
    else if params.sev_sigma < 0 then 0
    else total_draws.toNat

/-- The total undetected-incident count across all paths of a
`run_monte_carlo` call: the sum over paths of `int(nf * frac_undetected)`. -/
def totalUndetected (M : NumEnv) (w : World) (params : Params) (seed : ℤ)
    (n_paths : ℕ) : ℕ :=
  let rng : ℤ := default_rng (some seed) w
  let lam := params.n_transactions * params.base_fraud_rate
  let n_fraud := M.poissonDraws rng lam n_paths
  let frac_undetected := clip01 (1 - params.detection_rate)
  (n_fraud.map (undetOf frac_undetected)).sum

/-- The dictionary returned by `metrics.kpis`. -/
structure KPISummary where
  expected_loss : ℚ
  var_95 : ℚ
  cvar_95 : ℚ
  breach_prob : ℚ
deriving DecidableEq, Repr

/-- `metrics.kpis(sim_result, monthly_loss_budget)`. -/
def kpis (r : SimResult) (monthly_loss_budget : ℚ) : KPISummary :=
  { expected_loss := r.mean_loss
    var_95 := r.var_95
    cvar_95 := r.cvar_95
    breach_prob :=
      ((r.losses.countP (fun x => decide (monthly_loss_budget < x))) : ℚ) /
        (r.losses.length : ℚ) }

/-- A sensitivity bar `(driver key, low delta, high delta)`. -/
abbrev Bar := PKey × ℚ × ℚ

/-- The sort key of `tornado_data`: `max(abs(x[1]), abs(x[2]))`. -/
def barKey (b : Bar) : ℚ := max |b.2.1| |b.2.2|

/-- A heap of parameter dictionaries; Python dict references become
indices into the store, so that in-place mutation and `.copy()` are
observable. -/
abbrev Store := List Params

/-- Allocating a fresh dictionary (`params.copy()` allocates the copy). -/
def Store.alloc (σ : Store) (p : Params) : Store × ℕ := (σ ++ [p], σ.length)

/-- In-place dictionary write `d[k] = v` through reference `r`. -/
def Store.write (σ : Store) (r : ℕ) (k : PKey) (v : ℚ) : Store :=
  match σ[r]? with
  | some p => σ.set r (p.set k v)
  | none => σ

/-- One iteration's store effect in `tornado_data`: `p_lo = params.copy()`
and `p_hi = params.copy()` allocate two fresh dictionaries, then the
driver entry of each copy is written in place (the `detection_rate`
writes additionally clamped to `[0,1]`). -/
def tornadoStepStore (σ : Store) (params : Params) (k : PKey)
    (perturb : ℚ) : Store :=
  let a1 := σ.alloc params
  let a2 := a1.1.alloc params
  if k = PKey.detection_rate then
    (a2.1.write a1.2 k (max 0 (params.get k * (1 - perturb)))).write
      a2.2 k (min 1 (params.get k * (1 + perturb)))
  else
    (a2.1.write a1.2 k (params.get k * (1 - perturb))).write
      a2.2 k (params.get k * (1 + perturb))

/-- The per-driver loop of `tornado_data`: read the caller's `params`
through its reference, copy it twice, perturb the copies in place, run
the engine on both copies (read back through their references
`σ.length` and `σ.length + 1`), and record the bar.  `none` models an
exception escaping from `run_monte_carlo`. -/
def tornadoLoop (M : NumEnv) (w : World) (pRef : ℕ) (cfg_seed : ℤ)
    (n_paths : ℕ) (perturb base_mean : ℚ) :
    List PKey → Store → Option (List Bar × Store)
  | [], σ => some ([], σ)
  | k :: rest, σ =>
    match σ[pRef]? with
    | none => none
    | some params =>
      let σ3 := tornadoStepStore σ params k perturb
      match σ3[σ.length]?, σ3[σ.length + 1]? with
      | some pLo, some pHi =>
        match run_monte_carlo M w pLo cfg_seed n_paths,
              run_monte_carlo M w pHi cfg_seed n_paths with
        | some rLo, some rHi =>
          match tornadoLoop M w pRef cfg_seed n_paths perturb base_mean rest σ3 with
          | some br => some ((k, rLo.mean_loss - base_mean,
                              rHi.mean_loss - base_mean) :: br.1, br.2)
          | none => none
        | _, _ => none
      | _, _ => none

/-- `sensitivity.tornado_data(params, cfg_seed, n_paths, perturb)`, the
caller's `params` passed by reference into the store. -/
def tornado_data (M : NumEnv) (w : World) (σ : Store) (pRef : ℕ)
    (cfg_seed : ℤ) (n_paths : ℕ) (perturb : ℚ) :
    Option ((ℚ × List Bar) × Store) :=
  match σ[pRef]? with
  | none => none
  | some params0 =>
    match run_monte_carlo M w params0 cfg_seed n_paths with
    | none => none
    | some base =>
      let base_mean := base.mean_loss
      match tornadoLoop M w pRef cfg_seed n_paths perturb base_mean
          [PKey.base_fraud_rate, PKey.detection_rate, PKey.sev_sigma] σ with
      | none => none
      | some br =>
        some ((base_mean,
               br.1.mergeSort (fun a b => decide (barKey b ≤ barKey a))), br.2)

/-- The stratum midpoints of `lhs_samples`:
`bins = np.linspace(0, 1, n+1); u = (bins[:-1] + bins[1:]) / 2`. -/
def midpoints (n : ℕ) : List ℚ :=
  (List.range n).map (fun j : ℕ => (((j : ℚ) / (n : ℚ)) + (((j : ℚ) + 1) / (n : ℚ))) / 2)

/-- The per-parameter columns of `lhs_samples`: for the `i`-th named
range, shuffle the midpoints (the `i`-th `rng.shuffle` call) and map them
affinely into `[lo, hi]` (`vals = lo + u * (hi - lo)`). -/
def lhs_columns (M : NumEnv) (ranges : List (String × ℚ × ℚ)) (n : ℕ)
    (seed : ℤ) : List (String × List ℚ) :=
  ranges.enum.map (fun p =>
    (p.2.1, (M.shuffleQ seed p.1 (midpoints n)).map
      (fun u => p.2.2.1 + u * (p.2.2.2 - p.2.2.1))))

/-- `scenarios.lhs_samples(low_high_pairs, n, seed)`: records
`samples[j][k] = out[i][j]`, one record per sample index `j`. -/
def lhs_samples (M : NumEnv) (ranges : List (String × ℚ × ℚ)) (n : ℕ)
    (seed : ℤ) : List (List (String × ℚ)) :=
  (List.range n).map (fun j =>
    (lhs_columns M ranges n seed).map (fun c => (c.1, c.2.getD j 0)))

/-- A concrete draw environment used to instantiate the abstract model on
closed inputs. -/
def simpleEnv : NumEnv where
  poissonDraws := fun _ lam n =>
    if lam = 0 then List.replicate n 0 else List.replicate n 1
  normalDraws := fun _ mu _ n => List.replicate n mu
  shuffleQ := fun _ _ l => l.reverse
  expQ := fun q => q
  poisson_length := by
    intro s lam n
    by_cases h : lam = 0 <;> simp [h]
  normal_length := by
    intro s mu sigma n
    simp
  poisson_zero := by
    intro s n x hx
    simp only [if_pos rfl] at hx
    exact List.eq_of_mem_replicate hx
  shuffle_perm := by
    intro s i l
    exact l.reverse_perm

/-- The Poisson mean `lam = n_tx * p_fraud` of a `run_monte_carlo` call. -/
def mcLam (p : Params) : ℚ := p.n_transactions * p.base_fraud_rate

/-- The per-path fraud counts `n_fraud` of a `run_monte_carlo` call. -/
def mcNFraud (M : NumEnv) (w : World) (p : Params) (seed : ℤ) (n : ℕ) :
    List ℕ :=
  M.poissonDraws (default_rng (some seed) w) (mcLam p) n

/-- The undetected fraction `frac_undetected` of a `run_monte_carlo` call. -/
def mcU (p : Params) : ℚ := clip01 (1 - p.detection_rate)

/-- The severity-pool size `total_draws` of a `run_monte_carlo` call. -/
def mcTotalDraws (M : NumEnv) (w : World) (p : Params) (seed : ℤ) (n : ℕ) :
    ℤ :=
  pyInt (((mcNFraud M w p seed n).sum : ℚ) * mcU p + 1)

/-- The severity pool `severities` of a `run_monte_carlo` call. -/
def mcSeverities (M : NumEnv) (w : World) (p : Params) (seed : ℤ) (n : ℕ) :
    List ℚ :=
  (M.normalDraws (default_rng (some seed) w) p.sev_mu p.sev_sigma
    (mcTotalDraws M w p seed n).toNat).map M.expQ

/-- The loss vector `losses` of a `run_monte_carlo` call (main path). -/
def mcLosses (M : NumEnv) (w : World) (p : Params) (seed : ℤ) (n : ℕ) :
    List ℚ :=
  lossLoop (mcSeverities M w p seed n) (mcU p) (mcNFraud M w p seed n) 0

/-- The `var_95` of a `run_monte_carlo` call (main path). -/
def mcVar (M : NumEnv) (w : World) (p : Params) (seed : ℤ) (n : ℕ) : ℚ :=
  np_quantile95 (mcLosses M w p seed n)

/-- The CVaR tail `losses[losses >= var_95]` of a `run_monte_carlo` call. -/
def mcTail (M : NumEnv) (w : World) (p : Params) (seed : ℤ) (n : ℕ) :
    List ℚ :=
  (mcLosses M w p seed n).filter (fun x => decide (mcVar M w p seed n ≤ x))

/-- The result dictionary of a `run_monte_carlo` call (main path). -/
def mcResult (M : NumEnv) (w : World) (p : Params) (seed : ℤ) (n : ℕ) :
    SimResult :=
  { losses := mcLosses M w p seed n
    mean_loss := listMean (mcLosses M w p seed n)
    var_95 := mcVar M w p seed n
    cvar_95 := if (mcTail M w p seed n).length ≠ 0
               then listMean (mcTail M w p seed n) else 0
    n_fraud_mean := listMean ((mcNFraud M w p seed n).map (fun k : ℕ => (k : ℚ))) }

/-- Splitting a pool into consecutive segments of prescribed sizes,
in pool order (the partitioning scheme of the severity pool). -/
def segs (sev : List ℚ) : List ℕ → List (List ℚ)
  | [] => []
  | c :: cs => sev.take c :: segs (sev.drop c) cs

/-- A valid parameter set in the sense of the external-interface
contract: rates in `[0,1]`, positive counts and scales. -/
def ValidParams (p : Params) : Prop :=
  0 < p.n_transactions ∧ 0 < p.avg_ticket ∧
  0 ≤ p.base_fraud_rate ∧ p.base_fraud_rate ≤ 1 ∧
  0 ≤ p.detection_rate ∧ p.detection_rate ≤ 1 ∧
  0 ≤ p.false_positive_rate ∧ p.false_positive_rate ≤ 1 ∧
  0 < p.sev_sigma ∧ 0 < p.monthly_loss_budget

/-- The fraction of entries strictly exceeding a threshold (the
specified reading of `breach_prob`). -/
def fractionStrictlyAbove (l : List ℚ) (b : ℚ) : ℚ :=
  ((l.filter (fun x => decide (b < x))).length : ℚ) / (l.length : ℚ)

/-- The default configuration of `SimConfig`, as the dictionary built by
`make_baseline`. -/
def baselineParams : Params :=
  { n_transactions := 1000000
    avg_ticket := 85
    base_fraud_rate := 4 / 1000
    detection_rate := 72 / 100
    false_positive_rate := 1 / 100
    sev_mu := 42 / 10
    sev_sigma := 9 / 10
    monthly_loss_budget := 350000 }

/-- A small parameter set used for closed-input evaluations. -/
def tinyParams : Params :=
  { n_transactions := 10
    avg_ticket := 1
    base_fraud_rate := 1 / 2
    detection_rate := 1 / 2
    false_positive_rate := 0
    sev_mu := 1
    sev_sigma := 1
    monthly_loss_budget := 5 }

/-- `run_monte_carlo` written through its named components. -/
theorem run_monte_carlo_unfold (M : NumEnv) (w : World) (p : Params)
    (seed : ℤ) (n : ℕ) :
    run_monte_carlo M w p seed n =
      if mcLam p < 0 then none
      else if mcTotalDraws M w p seed n ≤ 0 then
        (if n = 0 then none
         else some { losses := List.replicate n (0 : ℚ)
                     mean_loss := listMean (List.replicate n (0 : ℚ))
                     var_95 := np_quantile95 (List.replicate n (0 : ℚ))
                     cvar_95 := 0
                     n_fraud_mean :=
                       listMean ((mcNFraud M w p seed n).map (fun k : ℕ => (k : ℚ))) })
      else if p.sev_sigma < 0 then none
      else if n = 0 then none
      else some (mcResult M w p seed n) := rfl

/-- `0 ≤ clip01 q`. -/
theorem clip01_nonneg (q : ℚ) : 0 ≤ clip01 q := by
  unfold clip01
  rcases le_total (1 : ℚ) (max 0 q) with h | h
  · simp [min_eq_left h]
  · simp [min_eq_right h]

/-- `clip01 q ≤ 1`. -/
theorem clip01_le_one (q : ℚ) : clip01 q ≤ 1 := min_le_left _ _

/-- On nonnegative arguments Python truncation is the floor. -/
theorem pyInt_of_nonneg {q : ℚ} (h : 0 ≤ q) : pyInt q = ⌊q⌋ := if_pos h

/-- The severity-pool size `int(n_fraud.sum() * frac_undetected + 1)` is
always at least `1`: the `total_draws <= 0` early-return branch of
`run_monte_carlo` is unreachable. -/
theorem one_le_mcTotalDraws (M : NumEnv) (w : World) (p : Params)
    (seed : ℤ) (n : ℕ) : 1 ≤ mcTotalDraws M w p seed n := by
  unfold mcTotalDraws
  have hu : 0 ≤ mcU p := clip01_nonneg _
  have hs : (0 : ℚ) ≤ ((mcNFraud M w p seed n).sum : ℚ) := by positivity
  have hprod : (0 : ℚ) ≤ ((mcNFraud M w p seed n).sum : ℚ) * mcU p :=
    mul_nonneg hs hu
  rw [pyInt_of_nonneg (by linarith)]
  refine Int.le_floor.mpr ?_
  have h1 : ((1 : ℤ) : ℚ) = 1 := by norm_num
  rw [h1]
  linarith

/-- Inversion: a successful `run_monte_carlo` call passed all guards and
returned exactly the main-path result. -/
theorem run_monte_carlo_some_inv {M : NumEnv} {w : World} {p : Params}
    {seed : ℤ} {n : ℕ} {r : SimResult}
    (h : run_monte_carlo M w p seed n = some r) :
    ¬ mcLam p < 0 ∧ ¬ p.sev_sigma < 0 ∧ n ≠ 0 ∧ r = mcResult M w p seed n := by
  rw [run_monte_carlo_unfold] at h
  have htot : ¬ mcTotalDraws M w p seed n ≤ 0 := by
    have := one_le_mcTotalDraws M w p seed n
    omega
  by_cases hlam : mcLam p < 0
  · simp [hlam] at h
  · rw [if_neg hlam, if_neg htot] at h
    by_cases hsig : p.sev_sigma < 0
    · simp [hsig] at h
    · rw [if_neg hsig] at h
      by_cases hn : n = 0
      · simp [hn] at h
      · rw [if_neg hn] at h
        exact ⟨hlam, hsig, hn, (Option.some_injective _ h).symm⟩

/-- In a sorted list, earlier entries are at most later entries. -/
theorem sorted_get_le_get {s : List ℚ} (hsort : s.Sorted (· ≤ ·))
    (i j : Fin s.length) (hij : i ≤ j) : s.get i ≤ s.get j := by
  rcases eq_or_lt_of_le hij with h | h
  · rw [Fin.le_antisymm hij (le_of_eq h.symm)]
  · exact hsort.rel_get_of_lt h

/-- The linear interpolation between two entries of a sorted list is at
most its last entry (the degenerate out-of-range upper index is allowed
only with interpolation weight `0`). -/
theorem interp_le_last {s : List ℚ} (hsort : s.Sorted (· ≤ ·))
    {j : ℕ} {g : ℚ} (hj : j < s.length) (hg0 : 0 ≤ g) (hg1 : g ≤ 1)
    (hside : j + 1 < s.length ∨ g = 0) :
    s.getD j 0 + g * (s.getD (j + 1) 0 - s.getD j 0) ≤
      s.getD (s.length - 1) 0 := by
  have hlast : s.length - 1 < s.length := by omega
  have hjle : s.getD j 0 ≤ s.getD (s.length - 1) 0 := by
    rw [List.getD_eq_getElem?_getD, List.getD_eq_getElem?_getD,
        List.getElem?_eq_getElem hj, List.getElem?_eq_getElem hlast]
    exact sorted_get_le_get hsort ⟨j, hj⟩ ⟨s.length - 1, hlast⟩ (by
      simp only [Fin.mk_le_mk]; omega)
  rcases hside with hj1 | hg
  · have hj1le : s.getD (j + 1) 0 ≤ s.getD (s.length - 1) 0 := by
      rw [List.getD_eq_getElem?_getD, List.getD_eq_getElem?_getD,
          List.getElem?_eq_getElem hj1, List.getElem?_eq_getElem hlast]
      exact sorted_get_le_get hsort ⟨j + 1, hj1⟩ ⟨s.length - 1, hlast⟩ (by
        simp only [Fin.mk_le_mk]; omega)
    nlinarith [mul_nonneg hg0 (sub_nonneg.mpr hj1le),
               mul_nonneg (sub_nonneg.mpr hg1) (sub_nonneg.mpr hjle)]
  · rw [hg]
    linarith

/-- `np.quantile(a, 0.95)` never exceeds some element of a nonempty
array: the interpolated 95th percentile is bounded by the maximum. -/
theorem np_quantile95_exists_ge (l : List ℚ) (hl : l ≠ []) :
    ∃ x ∈ l, np_quantile95 l ≤ x := by
  have hperm : (l.mergeSort (fun a b => decide (a ≤ b))).Perm l :=
    List.mergeSort_perm l _
  have hlen : (l.mergeSort (fun a b => decide (a ≤ b))).length = l.length :=
    List.length_mergeSort l
  have hsorted : (l.mergeSort (fun a b => decide (a ≤ b))).Sorted (· ≤ ·) := by
    have hp := @List.sorted_mergeSort ℚ
      (fun a b : ℚ => decide (a ≤ b))
      (fun a b c hab hbc => by
        simp only [decide_eq_true_eq] at *
        linarith)
      (fun a b => by
        simp only [Bool.or_eq_true, decide_eq_true_eq]
        exact le_total a b) l
    exact hp.imp (fun h => of_decide_eq_true h)
  have hnpos : 0 < l.length := List.length_pos.mpr hl
  set s := l.mergeSort (fun a b => decide (a ≤ b)) with hs_def
  set h : ℚ := (19 / 20) * ((l.length : ℚ) - 1) with hh_def
  have hh0 : 0 ≤ h := by
    have : (1 : ℚ) ≤ (l.length : ℚ) := by exact_mod_cast hnpos
    rw [hh_def]
    nlinarith
  set j : ℕ := (⌊h⌋).toNat with hj_def
  set g : ℚ := h - (j : ℚ) with hg_def
  have hjcast : ((j : ℤ) : ℚ) = ((⌊h⌋ : ℤ) : ℚ) := by
    rw [hj_def]
    exact_mod_cast congrArg (fun z : ℤ => (z : ℚ))
      (Int.toNat_of_nonneg (Int.floor_nonneg.mpr hh0))
  have hgfract : g = Int.fract h := by
    rw [hg_def, Int.fract]
    push_cast at hjcast ⊢
    rw [hjcast]
  have hg0 : 0 ≤ g := by rw [hgfract]; exact Int.fract_nonneg h
  have hg1 : g ≤ 1 := by rw [hgfract]; exact le_of_lt (Int.fract_lt_one h)
  have hhub : h ≤ (l.length : ℚ) - 1 := by
    have h1 : (0 : ℚ) ≤ (l.length : ℚ) - 1 := by
      have : (1 : ℚ) ≤ (l.length : ℚ) := by exact_mod_cast hnpos
      linarith
    rw [hh_def]
    nlinarith
  have hjlt : j < s.length := by
    rw [hlen]
    have hq : ((j : ℤ) : ℚ) ≤ (l.length : ℚ) - 1 := by
      rw [hjcast]
      exact le_trans (Int.floor_le h) hhub
    have hz : (j : ℤ) ≤ (l.length : ℤ) - 1 := by exact_mod_cast hq
    omega
  have hside : j + 1 < s.length ∨ g = 0 := by
    rcases Nat.lt_or_ge l.length 2 with h2 | h2
    · right
      have hn1 : l.length = 1 := by omega
      have hzero : h = 0 := by rw [hh_def, hn1]; norm_num
      have : j = 0 := by
        rw [hj_def, hzero]
        norm_num
      rw [hg_def, hzero, this]
      norm_num
    · left
      rw [hlen]
      have hlt : h < (l.length : ℚ) - 1 := by
        have hpos : (0 : ℚ) < (l.length : ℚ) - 1 := by
          have : (2 : ℚ) ≤ (l.length : ℚ) := by exact_mod_cast h2
          linarith
        rw [hh_def]
        nlinarith
      have hq : ((j : ℤ) : ℚ) < (l.length : ℚ) - 1 := by
        rw [hjcast]
        exact lt_of_le_of_lt (Int.floor_le h) hlt
      have hz : (j : ℤ) < (l.length : ℤ) - 1 := by exact_mod_cast hq
      omega
  have hq_eq : np_quantile95 l = s.getD j 0 + g * (s.getD (j + 1) 0 - s.getD j 0) := rfl
  have hbound := interp_le_last hsorted hjlt hg0 hg1 hside
  have hlastlt : s.length - 1 < s.length := by omega
  refine ⟨s.getD (s.length - 1) 0, ?_, ?_⟩
  · have : s.getD (s.length - 1) 0 ∈ s := by
      rw [List.getD_eq_getElem?_getD, List.getElem?_eq_getElem hlastlt]
      exact List.getElem_mem hlastlt
    exact hperm.subset this
  · rw [hq_eq]
    exact hbound

/-- The mean of a nonempty list of rationals dominates any common lower
bound of its entries. -/
theorem le_listMean_of_forall_le {l : List ℚ} {c : ℚ} (hne : l ≠ [])
    (h : ∀ x ∈ l, c ≤ x) : c ≤ listMean l := by
  have hlen : (0 : ℚ) < (l.length : ℚ) := by
    exact_mod_cast List.length_pos.mpr hne
  have hsum : ∀ (m : List ℚ), (∀ x ∈ m, c ≤ x) → c * m.length ≤ m.sum := by
    intro m
    induction m with
    | nil => intro _; simp
    | cons a t ih =>
      intro hm
      have ha := hm a (List.mem_cons_self a t)
      have ht := ih (fun x hx => hm x (List.mem_cons_of_mem a hx))
      simp only [List.sum_cons, List.length_cons]
      push_cast
      linarith
  rw [listMean, le_div_iff₀ hlen]
  exact hsum l h

/-- The aggregation loop yields one loss per path. -/
theorem lossLoop_length (sev : List ℚ) (u : ℚ) (nfs : List ℕ) (c : ℕ) :
    (lossLoop sev u nfs c).length = nfs.length := by
  induction nfs generalizing c with
  | nil => rfl
  | cons nf rest ih =>
    unfold lossLoop
    by_cases h : 0 < undetOf u nf
    · simp [h, ih]
    · simp [h, ih]

/-- When every path's undetected count is zero the loop produces the
all-zero vector. -/
theorem lossLoop_all_zero (sev : List ℚ) (u : ℚ) (nfs : List ℕ) (c : ℕ)
    (h : ∀ nf ∈ nfs, undetOf u nf = 0) :
    lossLoop sev u nfs c = List.replicate nfs.length 0 := by
  induction nfs generalizing c with
  | nil => rfl
  | cons nf rest ih =>
    have hnf : undetOf u nf = 0 := h nf (List.mem_cons_self nf rest)
    unfold lossLoop
    rw [hnf]
    simp only [lt_irrefl, if_neg (lt_irrefl 0)]
    rw [List.length_cons, List.replicate_succ]
    exact congrArg (List.cons 0) (ih c (fun x hx => h x (List.mem_cons_of_mem nf hx)))

/-- The cursor loop computes exactly the consecutive-segment sums of the
pool, with segment sizes the per-path undetected counts. -/
theorem lossLoop_eq_segs (sev : List ℚ) (u : ℚ) (nfs : List ℕ) (c : ℕ) :
    lossLoop sev u nfs c =
      (segs (sev.drop c) (nfs.map (undetOf u))).map List.sum := by
  induction nfs generalizing c with
  | nil => rfl
  | cons nf rest ih =>
    unfold lossLoop
    simp only [List.map_cons]
    unfold segs
    rw [List.map_cons]
    by_cases h : 0 < undetOf u nf
    · rw [if_pos h, ih (c + undetOf u nf)]
      rw [List.drop_drop]
    · rw [if_neg h]
      have h0 : undetOf u nf = 0 := by omega
      rw [h0]
      simp only [List.take_zero, List.drop_zero, List.sum_nil]
      rw [ih c]

/-- Segment sizes are honoured exactly when the pool is large enough:
no segment is silently truncated. -/
theorem segs_lengths (sev : List ℚ) (counts : List ℕ)
    (h : counts.sum ≤ sev.length) :
    (segs sev counts).map List.length = counts := by
  induction counts generalizing sev with
  | nil => rfl
  | cons cHead rest ih =>
    unfold segs
    rw [List.map_cons]
    have h1 : cHead ≤ sev.length := by
      have := List.sum_cons (a := cHead) (l := rest) ▸ h
      omega
    have h2 : rest.sum ≤ (sev.drop cHead).length := by
      rw [List.length_drop]
      have := List.sum_cons (a := cHead) (l := rest) ▸ h
      omega
    rw [List.length_take, min_eq_left h1, ih (sev.drop cHead) h2]

/-- Floors are superadditive. -/
theorem floor_add_floor_le_q (x y : ℚ) : ⌊x⌋ + ⌊y⌋ ≤ ⌊x + y⌋ := by
  refine Int.le_floor.mpr ?_
  push_cast
  linarith [Int.floor_le x, Int.floor_le y]

/-- On a nonnegative fraction, the per-path truncated undetected count is
the floor. -/
theorem undetOf_cast {u : ℚ} (hu : 0 ≤ u) (nf : ℕ) :
    ((undetOf u nf : ℤ)) = ⌊(nf : ℚ) * u⌋ := by
  unfold undetOf
  have hprod : (0 : ℚ) ≤ (nf : ℚ) * u := mul_nonneg (by positivity) hu
  rw [pyInt_of_nonneg hprod]
  exact Int.toNat_of_nonneg (Int.floor_nonneg.mpr hprod)

/-- The sum of per-path truncated undetected counts is at most the floor
of the truncation of the total. -/
theorem sum_undetOf_le_floor {u : ℚ} (hu : 0 ≤ u) (nfs : List ℕ) :
    (((nfs.map (undetOf u)).sum : ℤ)) ≤ ⌊((nfs.sum : ℚ)) * u⌋ := by
  induction nfs with
  | nil => simp
  | cons nf rest ih =>
    rw [List.map_cons, List.sum_cons, List.sum_cons]
    have hcast : ((undetOf u nf + (rest.map (undetOf u)).sum : ℕ) : ℤ) =
        ((undetOf u nf : ℤ)) + (((rest.map (undetOf u)).sum : ℕ) : ℤ) := by
      exact_mod_cast Nat.cast_add _ _
    rw [hcast, undetOf_cast hu nf]
    have hsum : ((nf + rest.sum : ℕ) : ℚ) = (nf : ℚ) + (rest.sum : ℚ) := by
      exact_mod_cast Nat.cast_add _ _
    rw [hsum]
    have step2 := floor_add_floor_le_q ((nf : ℚ) * u) (((rest.sum : ℚ)) * u)
    have heq : (nf : ℚ) * u + ((rest.sum : ℚ)) * u =
        ((nf : ℚ) + (rest.sum : ℚ)) * u := by ring
    rw [heq] at step2
    omega

/-- The per-path undetected counts of a run sum to at most the severity
pool size `int(n_fraud.sum() * frac_undetected + 1)`. -/
theorem sum_undetOf_le_totalDraws (M : NumEnv) (w : World) (p : Params)
    (seed : ℤ) (n : ℕ) :
    ((mcNFraud M w p seed n).map (undetOf (mcU p))).sum ≤
      (mcTotalDraws M w p seed n).toNat := by
  have hu : 0 ≤ mcU p := clip01_nonneg _
  have h1 := sum_undetOf_le_floor hu (mcNFraud M w p seed n)
  have h2 : mcTotalDraws M w p seed n =
      ⌊((mcNFraud M w p seed n).sum : ℚ) * mcU p⌋ + 1 := by
    unfold mcTotalDraws
    have hprod : (0 : ℚ) ≤ ((mcNFraud M w p seed n).sum : ℚ) * mcU p :=
      mul_nonneg (by positivity) hu
    rw [pyInt_of_nonneg (by linarith)]
    exact Int.floor_add_one _
  omega

/-- The total undetected count is the sum of the per-path truncated
counts of the run. -/
theorem totalUndetected_eq (M : NumEnv) (w : World) (p : Params)
    (seed : ℤ) (n : ℕ) :
    totalUndetected M w p seed n =
      ((mcNFraud M w p seed n).map (undetOf (mcU p))).sum := rfl

/-- The severity-draw count through its named components. -/
theorem severityDrawCount_unfold (M : NumEnv) (w : World) (p : Params)
    (seed : ℤ) (n : ℕ) :
    severityDrawCount M w p seed n =
      if mcLam p < 0 then 0
      else if mcTotalDraws M w p seed n ≤ 0 then 0
      else if p.sev_sigma < 0 then 0
      else (mcTotalDraws M w p seed n).toNat := rfl

/-- An in-place write preserves the store's size. -/
theorem Store.write_length (σ : Store) (t : ℕ) (k : PKey) (v : ℚ) :
    (σ.write t k v).length = σ.length := by
  unfold Store.write
  cases h : σ[t]? with
  | none => rfl
  | some p => exact List.length_set σ t _

/-- An in-place write leaves every other reference's dictionary intact. -/
theorem Store.write_getElem_ne (σ : Store) (t : ℕ) (k : PKey) (v : ℚ)
    (r : ℕ) (h : r ≠ t) : (σ.write t k v)[r]? = σ[r]? := by
  unfold Store.write
  cases hh : σ[t]? with
  | none => rfl
  | some p => exact List.getElem?_set_ne (Ne.symm h)

/-- Appending allocations leaves existing references intact. -/
theorem getElem_append_lt (σ : Store) (p : Params) (r : ℕ)
    (h : r < σ.length) : (σ ++ [p])[r]? = σ[r]? := by
  rw [List.getElem?_append]
  exact if_pos h

/-- A tornado iteration grows the store by exactly the two copies. -/
theorem tornadoStepStore_length (σ : Store) (params : Params) (k : PKey)
    (perturb : ℚ) :
    (tornadoStepStore σ params k perturb).length = σ.length + 2 := by
  unfold tornadoStepStore Store.alloc
  by_cases h : k = PKey.detection_rate <;>
    simp [h, Store.write_length, List.length_append]

/-- A tornado iteration's store effect is invisible below the caller's
frontier: only the two fresh copies are written. -/
theorem tornadoStepStore_frame (σ : Store) (params : Params) (k : PKey)
    (perturb : ℚ) (r : ℕ) (h : r < σ.length) :
    (tornadoStepStore σ params k perturb)[r]? = σ[r]? := by
  have hlt1 : r < (σ ++ [params]).length := by
    rw [List.length_append]; simp; omega
  have hne1 : r ≠ σ.length := by omega
  have hne2 : r ≠ σ.length + 1 := by omega
  unfold tornadoStepStore Store.alloc
  by_cases hk : k = PKey.detection_rate
  · rw [if_pos hk]
    rw [Store.write_getElem_ne _ _ _ _ _ (by simpa using hne2)]
    rw [Store.write_getElem_ne _ _ _ _ _ (by simpa using hne1)]
    rw [getElem_append_lt _ _ _ hlt1, getElem_append_lt _ _ _ h]
  · rw [if_neg hk]
    rw [Store.write_getElem_ne _ _ _ _ _ (by simpa using hne2)]
    rw [Store.write_getElem_ne _ _ _ _ _ (by simpa using hne1)]
    rw [getElem_append_lt _ _ _ hlt1, getElem_append_lt _ _ _ h]

/-- The tornado loop only ever allocates and writes beyond the store it
was given: every pre-existing dictionary is left intact. -/
theorem tornadoLoop_frame (M : NumEnv) (w : World) (pRef : ℕ)
    (cfg_seed : ℤ) (n_paths : ℕ) (perturb base_mean : ℚ) (keys : List PKey)
    (σ : Store) (out : List Bar × Store)
    (h : tornadoLoop M w pRef cfg_seed n_paths perturb base_mean keys σ =
      some out) :
    σ.length ≤ out.2.length ∧ ∀ r < σ.length, out.2[r]? = σ[r]? := by
  induction keys generalizing σ out with
  | nil =>
    unfold tornadoLoop at h
    rw [Option.some_inj] at h
    rw [← h]
    exact ⟨le_refl _, fun r _ => rfl⟩
  | cons k rest ih =>
    unfold tornadoLoop at h
    split at h
    · exact absurd h (by simp)
    · rename_i params hparams
      dsimp only at h
      split at h
      all_goals try exact Option.noConfusion h
      split at h
      all_goals try exact Option.noConfusion h
      split at h
      all_goals try exact Option.noConfusion h
      rename_i br hbr
      rw [Option.some_inj] at h
      have hstep := ih _ _ hbr
      have hlen := tornadoStepStore_length σ params k perturb
      constructor
      · rw [← h]
        dsimp only
        omega
      · intro r hr
        rw [← h]
        dsimp only
        rw [hstep.2 r (by omega)]
        exact tornadoStepStore_frame σ params k perturb r hr

/-- Inversion of a successful `tornado_data` call: the caller's reference
was valid, the baseline run and the per-driver loop succeeded, and the
output is the loop's bars sorted by descending `max(|low|, |high|)` with
the loop's final store. -/
theorem tornado_data_some_inv {M : NumEnv} {w : World} {σ : Store}
    {pRef : ℕ} {cfg_seed : ℤ} {n_paths : ℕ} {perturb : ℚ}
    {out : (ℚ × List Bar) × Store}
    (h : tornado_data M w σ pRef cfg_seed n_paths perturb = some out) :
    ∃ params0 base br,
      σ[pRef]? = some params0 ∧
      run_monte_carlo M w params0 cfg_seed n_paths = some base ∧
      tornadoLoop M w pRef cfg_seed n_paths perturb base.mean_loss
        [PKey.base_fraud_rate, PKey.detection_rate, PKey.sev_sigma] σ =
        some br ∧
      out = ((base.mean_loss,
              br.1.mergeSort (fun a b => decide (barKey b ≤ barKey a))),
             br.2) := by
  unfold tornado_data at h
  split at h
  · exact Option.noConfusion h
  · rename_i params0 hp
    split at h
    · exact Option.noConfusion h
    · rename_i base hbase
      dsimp only at h
      split at h
      · exact Option.noConfusion h
      · rename_i br hbr
        rw [Option.some_inj] at h
        exact ⟨params0, base, br, hp, hbase, hbr, h.symm⟩

/-- A bar list sorted with the tornado comparator is pairwise descending
in the `max(|low|, |high|)` key. -/
theorem mergeSort_barKey_pairwise (l : List Bar) :
    (l.mergeSort (fun a b => decide (barKey b ≤ barKey a))).Pairwise
      (fun a b => barKey b ≤ barKey a) := by
  have hp := @List.sorted_mergeSort Bar
    (fun a b : Bar => decide (barKey b ≤ barKey a))
    (fun a b c hab hbc => by
      simp only [decide_eq_true_eq] at *
      linarith)
    (fun a b => by
      simp only [Bool.or_eq_true, decide_eq_true_eq]
      exact le_total (barKey b) (barKey a)) l
  exact hp.imp (fun h => of_decide_eq_true h)

/-- A reference that dereferences successfully is inside the store. -/
theorem lt_length_of_getElem?_some {α : Type} {l : List α} {n : ℕ} {a : α}
    (h : l[n]? = some a) : n < l.length := by
  by_contra hc
  push_neg at hc
  rw [List.getElem?_eq_none hc] at h
  exact Option.noConfusion h

/-- Reading a list back entry by entry reproduces it. -/
theorem range_map_getD (l : List ℚ) (n : ℕ) (hlen : l.length = n) :
    (List.range n).map (fun j => l.getD j 0) = l := by
  apply List.ext_getElem
  · simp [hlen]
  · intro m h1 h2
    rw [List.getElem_map, List.getElem_range]
    rw [List.getD_eq_getElem?_getD, List.getElem?_eq_getElem h2]
    rfl

/-- The `i`-th column of `lhs_samples`: the `i`-th shuffle of the
midpoints mapped affinely into the `i`-th range. -/
theorem lhs_columns_getElem (M : NumEnv) (ranges : List (String × ℚ × ℚ))
    (n : ℕ) (seed : ℤ) (i : ℕ) (h : i < ranges.length) :
    (lhs_columns M ranges n seed)[i]? =
      some ((ranges.get ⟨i, h⟩).1,
        (M.shuffleQ seed i (midpoints n)).map
          (fun u => (ranges.get ⟨i, h⟩).2.1 +
            u * ((ranges.get ⟨i, h⟩).2.2 - (ranges.get ⟨i, h⟩).2.1))) := by
  unfold lhs_columns
  rw [List.getElem?_map, List.getElem?_enum, List.getElem?_eq_getElem h]
  simp [List.get_eq_getElem]

/-- The `i`-th entry of every record of `lhs_samples`: the range's name
paired with the `j`-th entry of the `i`-th column. -/
theorem lhs_record_getD (M : NumEnv) (ranges : List (String × ℚ × ℚ))
    (n : ℕ) (seed : ℤ) (i : ℕ) (h : i < ranges.length) (j : ℕ) :
    ((lhs_columns M ranges n seed).map (fun c => (c.1, c.2.getD j 0))).getD
        i ("", 0) =
      ((ranges.get ⟨i, h⟩).1,
        ((M.shuffleQ seed i (midpoints n)).map
          (fun u => (ranges.get ⟨i, h⟩).2.1 +
            u * ((ranges.get ⟨i, h⟩).2.2 - (ranges.get ⟨i, h⟩).2.1))).getD
          j 0) := by
  rw [List.getD_eq_getElem?_getD, List.getElem?_map,
      lhs_columns_getElem M ranges n seed i h]
  rfl

/-- The `i`-th column of `lhs_samples` has one entry per sample. -/
theorem lhs_column_length (M : NumEnv) (n : ℕ) (seed : ℤ) (i : ℕ)
    (lo hi : ℚ) :
    ((M.shuffleQ seed i (midpoints n)).map
      (fun u => lo + u * (hi - lo))).length = n := by
  rw [List.length_map, (M.shuffle_perm seed i (midpoints n)).length_eq]
  simp only [midpoints, List.length_map, List.length_range]

/-- Extracting the `i`-th value from every record of `lhs_samples`
recovers exactly the `i`-th column. -/
theorem lhs_values_eq (M : NumEnv) (ranges : List (String × ℚ × ℚ))
    (n : ℕ) (seed : ℤ) (i : ℕ) (h : i < ranges.length) :
    (lhs_samples M ranges n seed).map (fun rec => (rec.getD i ("", 0)).2) =
      (M.shuffleQ seed i (midpoints n)).map
        (fun u => (ranges.get ⟨i, h⟩).2.1 +
          u * ((ranges.get ⟨i, h⟩).2.2 - (ranges.get ⟨i, h⟩).2.1)) := by
  unfold lhs_samples
  rw [List.map_map]
  have hfun : ∀ j ∈ List.range n,
      ((fun rec : List (String × ℚ) => (rec.getD i ("", 0)).2) ∘
        (fun j => (lhs_columns M ranges n seed).map
          (fun c => (c.1, c.2.getD j 0)))) j =
      (fun j => ((M.shuffleQ seed i (midpoints n)).map
        (fun u => (ranges.get ⟨i, h⟩).2.1 +
          u * ((ranges.get ⟨i, h⟩).2.2 - (ranges.get ⟨i, h⟩).2.1))).getD
        j 0) j := by
    intro j _
    simp only [Function.comp]
    rw [lhs_record_getD M ranges n seed i h j]
  rw [List.map_congr_left hfun]
  exact range_map_getD _ n (lhs_column_length M n seed i _ _)

/-- A run's loss vector has exactly one entry per path. -/
theorem mcLosses_length (M : NumEnv) (w : World) (p : Params) (seed : ℤ)
    (n : ℕ) : (mcLosses M w p seed n).length = n := by
  unfold mcLosses
  rw [lossLoop_length]
  unfold mcNFraud
  exact M.poisson_length _ _ _

/-- For a positive path count the CVaR tail `losses[losses >= var_95]` is
never empty: the maximal loss always meets the interpolated threshold. -/
theorem mcTail_ne_nil (M : NumEnv) (w : World) (p : Params) (seed : ℤ)
    (n : ℕ) (hn : n ≠ 0) : mcTail M w p seed n ≠ [] := by
  have hlen := mcLosses_length M w p seed n
  have hne : mcLosses M w p seed n ≠ [] := by
    intro hc
    rw [hc] at hlen
    simp at hlen
    omega
  obtain ⟨x, hx, hxge⟩ := np_quantile95_exists_ge _ hne
  intro hc
  have hmem : x ∈ mcTail M w p seed n := by
    unfold mcTail
    rw [List.mem_filter]
    exact ⟨hx, by simpa using hxge⟩
  rw [hc] at hmem
  exact absurd hmem (List.not_mem_nil x)

/-- An affine blend with weight in `[0,1]` stays between its endpoints. -/
theorem affine_bounds {lo hi u : ℚ} (h0 : 0 ≤ u) (h1 : u ≤ 1) :
    min lo hi ≤ lo + u * (hi - lo) ∧ lo + u * (hi - lo) ≤ max lo hi := by
  rcases le_total lo hi with h | h
  · rw [min_eq_left h, max_eq_right h]
    constructor <;> nlinarith
  · rw [min_eq_right h, max_eq_left h]
    constructor <;> nlinarith

/-- Every stratum midpoint lies in `[0,1]`. -/
theorem midpoints_mem_bounds {n : ℕ} {u : ℚ} (hu : u ∈ midpoints n) :
    0 ≤ u ∧ u ≤ 1 := by
  unfold midpoints at hu
  obtain ⟨j, hj, rfl⟩ := List.mem_map.mp hu
  rw [List.mem_range] at hj
  have hnpos : (0 : ℚ) < (n : ℚ) := by
    have : 0 < n := by omega
    exact_mod_cast this
  have hjn : (j : ℚ) + 1 ≤ (n : ℚ) := by exact_mod_cast hj
  constructor
  · positivity
  · rw [div_le_one (by norm_num), div_add_div_same, div_le_iff₀ hnpos]
    linarith

/-- C3: in every result of `run_monte_carlo`, `cvar_95` equals the mean
of all losses `≥ var_95`, and if that tail set were empty `cvar_95` would
still equal `var_95` (for a returned result the tail is never empty, so
the fallback clause holds without the computation ever failing). -/
theorem claim_C3_cvar_is_tail_mean {M : NumEnv} {w : World} {p : Params}
    {seed : ℤ} {n : ℕ} {r : SimResult}
    (h : run_monte_carlo M w p seed n = some r) :
    r.cvar_95 =
      listMean (r.losses.filter (fun x => decide (r.var_95 ≤ x))) ∧
    (r.losses.filter (fun x => decide (r.var_95 ≤ x)) = [] →
      r.cvar_95 = r.var_95) := by
  obtain ⟨hlam, hsig, hn, hr⟩ := run_monte_carlo_some_inv h
  subst hr
  have htail := mcTail_ne_nil M w p seed n hn
  have hlen0 : (mcTail M w p seed n).length ≠ 0 := fun hc =>
    htail (List.length_eq_zero.mp hc)
  constructor
  · show (if (mcTail M w p seed n).length ≠ 0
        then listMean (mcTail M w p seed n) else 0) = _
    rw [if_pos hlen0]
    rfl
  · intro hc
    exact absurd hc htail

/-- C4: in every result of `run_monte_carlo`, `cvar_95 ≥ var_95`: the
tail mean dominates the threshold it is built from. -/
theorem claim_C4_cvar_ge_var {M : NumEnv} {w : World} {p : Params}
    {seed : ℤ} {n : ℕ} {r : SimResult}
    (h : run_monte_carlo M w p seed n = some r) :
    r.var_95 ≤ r.cvar_95 := by
  obtain ⟨hlam, hsig, hn, hr⟩ := run_monte_carlo_some_inv h
  subst hr
  have htail := mcTail_ne_nil M w p seed n hn
  have hlen0 : (mcTail M w p seed n).length ≠ 0 := fun hc =>
    htail (List.length_eq_zero.mp hc)
  have hall : ∀ x ∈ mcTail M w p seed n, mcVar M w p seed n ≤ x := by
    intro x hx
    unfold mcTail at hx
    rw [List.mem_filter] at hx
    simpa using hx.2
  have hmean := le_listMean_of_forall_le htail hall
  show mcVar M w p seed n ≤
    (if (mcTail M w p seed n).length ≠ 0
      then listMean (mcTail M w p seed n) else 0)
  rw [if_pos hlen0]
  exact hmean

/-- C5: `run_monte_carlo` is deterministic in `(params, seed, n_paths)`:
its generator is built fresh from exactly the given seed, so the ambient
process-wide randomness state is irrelevant and repeated invocations
agree exactly. -/
theorem claim_C5_deterministic (M : NumEnv) (p : Params) (seed : ℤ)
    (n : ℕ) (w1 w2 : World) :
    run_monte_carlo M w1 p seed n = run_monte_carlo M w2 p seed n := rfl

/-- C6: `kpis` reports `breach_prob` as the fraction of paths whose loss
strictly exceeds the budget, and passes `mean_loss`, `var_95`, `cvar_95`
through unchanged. -/
theorem claim_C6_kpis_passthrough (r : SimResult) (budget : ℚ) :
    kpis r budget =
      { expected_loss := r.mean_loss
        var_95 := r.var_95
        cvar_95 := r.cvar_95
        breach_prob := fractionStrictlyAbove r.losses budget } := by
  unfold kpis fractionStrictlyAbove
  rw [List.countP_eq_length_filter]

/-- C9: with the clamped undetected fraction, the per-path truncated
undetected counts sum to at most the severity-pool size, the loss vector
is exactly the consecutive-segment sums of the pool in path order, and
every segment has its full prescribed length — no slice is truncated. -/
theorem claim_C9_pool_in_bounds (M : NumEnv) (w : World) (p : Params)
    (seed : ℤ) (n : ℕ) :
    ((mcNFraud M w p seed n).map (undetOf (mcU p))).sum ≤
        (mcSeverities M w p seed n).length ∧
    mcLosses M w p seed n =
      (segs (mcSeverities M w p seed n)
        ((mcNFraud M w p seed n).map (undetOf (mcU p)))).map List.sum ∧
    (segs (mcSeverities M w p seed n)
        ((mcNFraud M w p seed n).map (undetOf (mcU p)))).map List.length =
      (mcNFraud M w p seed n).map (undetOf (mcU p)) := by
  have hsev_len : (mcSeverities M w p seed n).length =
      (mcTotalDraws M w p seed n).toNat := by
    unfold mcSeverities
    rw [List.length_map, M.normal_length]
  have hsum := sum_undetOf_le_totalDraws M w p seed n
  refine ⟨by rw [hsev_len]; exact hsum, ?_, ?_⟩
  · unfold mcLosses
    rw [lossLoop_eq_segs, List.drop_zero]
  · exact segs_lengths _ _ (by rw [hsev_len]; exact hsum)

/-- C10: `tornado_data` never mutates the caller's parameter dictionary:
the reference passed in dereferences to the same record after the call,
and in fact every pre-existing dictionary in the store is untouched —
perturbations are applied only to the per-driver copies. -/
theorem claim_C10_params_unchanged {M : NumEnv} {w : World} {σ : Store}
    {pRef : ℕ} {cfg_seed : ℤ} {n_paths : ℕ} {perturb : ℚ}
    {out : (ℚ × List Bar) × Store}
    (h : tornado_data M w σ pRef cfg_seed n_paths perturb = some out) :
    out.2[pRef]? = σ[pRef]? ∧ ∀ r < σ.length, out.2[r]? = σ[r]? := by
  obtain ⟨params0, base, br, hp, hbase, hbr, hout⟩ := tornado_data_some_inv h
  have hframe := tornadoLoop_frame M w pRef cfg_seed n_paths perturb
    base.mean_loss _ σ br hbr
  have hlt := lt_length_of_getElem?_some hp
  subst hout
  exact ⟨hframe.2 pRef hlt, hframe.2⟩

/-- C7: the bar sequence returned by `tornado_data` is sorted by
non-increasing `max(|low_delta|, |high_delta|)`: every adjacent pair of
bars is ordered largest-impact first. -/
theorem claim_C7_bars_sorted {M : NumEnv} {w : World} {σ : Store}
    {pRef : ℕ} {cfg_seed : ℤ} {n_paths : ℕ} {perturb : ℚ}
    {out : (ℚ × List Bar) × Store}
    (_hp : 0 < perturb) (_hq : perturb < 1)
    (h : tornado_data M w σ pRef cfg_seed n_paths perturb = some out) :
    out.1.2.Chain' (fun a b => barKey b ≤ barKey a) := by
  obtain ⟨params0, base, br, hρ, hbase, hbr, hout⟩ := tornado_data_some_inv h
  subst hout
  exact (mergeSort_barKey_pairwise br.1).chain'

/-- C2 (amended): on a valid parameter set, seed, and positive trial
count, whenever the total undetected-incident count across all paths is
zero, `run_monte_carlo` returns a well-formed all-zero loss vector of
length `n_paths` — but it still draws a severity pool of size
`int(n_fraud.sum() * frac_undetected + 1) ≥ 1`, i.e. at least one
severity, rather than none. -/
theorem claim_C2_amended_zero_losses {M : NumEnv} {w : World} {p : Params}
    {seed : ℤ} {n : ℕ} (hv : ValidParams p) (hn : 0 < n)
    (hz : totalUndetected M w p seed n = 0) :
    ∃ r, run_monte_carlo M w p seed n = some r ∧
      r.losses = List.replicate n 0 ∧ r.losses.length = n ∧
      severityDrawCount M w p seed n = (mcTotalDraws M w p seed n).toNat ∧
      1 ≤ severityDrawCount M w p seed n := by
  obtain ⟨hntx, hticket, hrate0, hrate1, hdet0, hdet1, hfp0, hfp1, hsig,
    hbud⟩ := hv
  have hlam : ¬ mcLam p < 0 :=
    not_lt.mpr (mul_nonneg (le_of_lt hntx) hrate0)
  have hsig2 : ¬ p.sev_sigma < 0 := not_lt.mpr (le_of_lt hsig)
  have hn0 : n ≠ 0 := by omega
  have htot := one_le_mcTotalDraws M w p seed n
  have htot2 : ¬ mcTotalDraws M w p seed n ≤ 0 := by omega
  have hrun : run_monte_carlo M w p seed n =
      some (mcResult M w p seed n) := by
    rw [run_monte_carlo_unfold, if_neg hlam, if_neg htot2, if_neg hsig2,
        if_neg hn0]
  have hzero : ∀ nf ∈ mcNFraud M w p seed n, undetOf (mcU p) nf = 0 := by
    rw [totalUndetected_eq] at hz
    intro nf hnf
    exact List.sum_eq_zero_iff.mp hz (undetOf (mcU p) nf)
      (List.mem_map_of_mem _ hnf)
  have hlosses : mcLosses M w p seed n = List.replicate n 0 := by
    unfold mcLosses
    rw [lossLoop_all_zero _ _ _ _ hzero]
    congr 1
    unfold mcNFraud
    exact M.poisson_length _ _ _
  refine ⟨mcResult M w p seed n, hrun, hlosses, ?_, ?_, ?_⟩
  · show (mcLosses M w p seed n).length = n
    exact mcLosses_length M w p seed n
  · rw [severityDrawCount_unfold, if_neg hlam, if_neg htot2, if_neg hsig2]
  · rw [severityDrawCount_unfold, if_neg hlam, if_neg htot2, if_neg hsig2]
    omega

/-- C8: `lhs_samples` returns exactly `n` records; the `i`-th entry of
every record carries the `i`-th range's name; the multiset of that
parameter's values across the `n` records is exactly the `n` stratum
midpoints `low + ((2j+1)/(2n))·(high − low)`; and every sampled value
lies between `low` and `high`. -/
theorem claim_C8_lhs_stratified (M : NumEnv)
    (ranges : List (String × ℚ × ℚ)) (n : ℕ) (seed : ℤ) (i : ℕ)
    (hilt : i < ranges.length) (hn : 0 < n) :
    (lhs_samples M ranges n seed).length = n ∧
    (∀ rec ∈ lhs_samples M ranges n seed,
      (rec.getD i ("", 0)).1 = (ranges.get ⟨i, hilt⟩).1) ∧
    ((lhs_samples M ranges n seed).map
        (fun rec => (rec.getD i ("", 0)).2)).Perm
      ((List.range n).map (fun j : ℕ =>
        (ranges.get ⟨i, hilt⟩).2.1 +
          ((2 * (j : ℚ) + 1) / (2 * (n : ℚ))) *
            ((ranges.get ⟨i, hilt⟩).2.2 - (ranges.get ⟨i, hilt⟩).2.1))) ∧
    (∀ rec ∈ lhs_samples M ranges n seed,
      min (ranges.get ⟨i, hilt⟩).2.1 (ranges.get ⟨i, hilt⟩).2.2 ≤
          (rec.getD i ("", 0)).2 ∧
        (rec.getD i ("", 0)).2 ≤
          max (ranges.get ⟨i, hilt⟩).2.1 (ranges.get ⟨i, hilt⟩).2.2) := by
  have hnq : (n : ℚ) ≠ 0 := by
    exact_mod_cast Nat.pos_iff_ne_zero.mp hn
  have hmid : (midpoints n).map (fun u =>
      (ranges.get ⟨i, hilt⟩).2.1 +
        u * ((ranges.get ⟨i, hilt⟩).2.2 - (ranges.get ⟨i, hilt⟩).2.1)) =
      (List.range n).map (fun j : ℕ =>
        (ranges.get ⟨i, hilt⟩).2.1 +
          ((2 * (j : ℚ) + 1) / (2 * (n : ℚ))) *
            ((ranges.get ⟨i, hilt⟩).2.2 - (ranges.get ⟨i, hilt⟩).2.1)) := by
    unfold midpoints
    rw [List.map_map]
    apply List.map_congr_left
    intro j _
    simp only [Function.comp]
    field_simp
    ring
  refine ⟨?_, ?_, ?_, ?_⟩
  · unfold lhs_samples
    rw [List.length_map, List.length_range]
  · intro rec hrec
    unfold lhs_samples at hrec
    obtain ⟨j, hj, rfl⟩ := List.mem_map.mp hrec
    rw [lhs_record_getD M ranges n seed i hilt j]
  · rw [lhs_values_eq M ranges n seed i hilt]
    calc ((M.shuffleQ seed i (midpoints n)).map (fun u =>
            (ranges.get ⟨i, hilt⟩).2.1 +
              u * ((ranges.get ⟨i, hilt⟩).2.2 -
                (ranges.get ⟨i, hilt⟩).2.1))).Perm
          ((midpoints n).map (fun u =>
            (ranges.get ⟨i, hilt⟩).2.1 +
              u * ((ranges.get ⟨i, hilt⟩).2.2 -
                (ranges.get ⟨i, hilt⟩).2.1))) :=
        (M.shuffle_perm seed i (midpoints n)).map _
      _ = _ := hmid
  · intro rec hrec
    unfold lhs_samples at hrec
    obtain ⟨j, hj, rfl⟩ := List.mem_map.mp hrec
    rw [lhs_record_getD M ranges n seed i hilt j]
    rw [List.mem_range] at hj
    have hcol_len := lhs_column_length M n seed i
      (ranges.get ⟨i, hilt⟩).2.1 (ranges.get ⟨i, hilt⟩).2.2
    have hjlt : j < ((M.shuffleQ seed i (midpoints n)).map (fun u =>
        (ranges.get ⟨i, hilt⟩).2.1 +
          u * ((ranges.get ⟨i, hilt⟩).2.2 -
            (ranges.get ⟨i, hilt⟩).2.1))).length := by
      rw [hcol_len]
      exact hj
    have hmem : ((M.shuffleQ seed i (midpoints n)).map (fun u =>
        (ranges.get ⟨i, hilt⟩).2.1 +
          u * ((ranges.get ⟨i, hilt⟩).2.2 -
            (ranges.get ⟨i, hilt⟩).2.1))).getD j 0 ∈
        (M.shuffleQ seed i (midpoints n)).map (fun u =>
          (ranges.get ⟨i, hilt⟩).2.1 +
            u * ((ranges.get ⟨i, hilt⟩).2.2 -
              (ranges.get ⟨i, hilt⟩).2.1)) := by
      rw [List.getD_eq_getElem?_getD, List.getElem?_eq_getElem hjlt]
      exact List.getElem_mem hjlt
    rw [List.mem_map] at hmem
    obtain ⟨u, hu, heq⟩ := hmem
    have hu2 : u ∈ midpoints n :=
      (M.shuffle_perm seed i (midpoints n)).subset hu
    obtain ⟨h0, h1⟩ := midpoints_mem_bounds hu2
    rw [← heq]
    exact affine_bounds h0 h1

set_option maxRecDepth 10000

/-- C1: the engine performs no parameter validation.  With
`base_fraud_rate = 2` — a rate outside `[0,1]` — `run_monte_carlo` does
not signal any validation failure: it runs to completion and returns a
loss vector of length `n_paths = 3` computed from the invalid input. -/
theorem claim_C1_engine_accepts_invalid_rate :
    (run_monte_carlo simpleEnv ⟨0⟩
        { baselineParams with base_fraud_rate := 2 } 0 3).map
      (fun r => r.losses.length) = some 3 := by
  with_unfolding_all decide

/-- C2 counterexample: with `detection_rate = 1` the total undetected
count is `0`, yet the run draws `int(n_fraud.sum() * 0 + 1) = 1`
severity — contradicting the claim that no severities are drawn. -/
theorem claim_C2_counterexample :
    totalUndetected simpleEnv ⟨0⟩
        { baselineParams with detection_rate := 1 } 0 2 = 0 ∧
    severityDrawCount simpleEnv ⟨0⟩
        { baselineParams with detection_rate := 1 } 0 2 = 1 := by
  with_unfolding_all decide

/-- C2 witness: the amended claim instantiated at full detection on the
baseline configuration with two paths. -/
theorem claim_C2_witness :
    ValidParams { baselineParams with detection_rate := 1 } ∧
    0 < 2 ∧
    totalUndetected simpleEnv ⟨0⟩
        { baselineParams with detection_rate := 1 } 0 2 = 0 ∧
    (∃ r, run_monte_carlo simpleEnv ⟨0⟩
        { baselineParams with detection_rate := 1 } 0 2 = some r ∧
      r.losses = List.replicate 2 0 ∧ r.losses.length = 2 ∧
      severityDrawCount simpleEnv ⟨0⟩
          { baselineParams with detection_rate := 1 } 0 2 =
        (mcTotalDraws simpleEnv ⟨0⟩
          { baselineParams with detection_rate := 1 } 0 2).toNat ∧
      1 ≤ severityDrawCount simpleEnv ⟨0⟩
          { baselineParams with detection_rate := 1 } 0 2) := by
  have hval : ValidParams { baselineParams with detection_rate := 1 } := by
    unfold ValidParams baselineParams
    norm_num
  have htot : totalUndetected simpleEnv ⟨0⟩
      { baselineParams with detection_rate := 1 } 0 2 = 0 := by
    with_unfolding_all decide
  exact ⟨hval, by norm_num, htot,
    claim_C2_amended_zero_losses hval (by norm_num) htot⟩

/-- C3 witness: the tail-mean property instantiated at a concrete run
with two paths of loss `1` each. -/
theorem claim_C3_witness :
    run_monte_carlo simpleEnv ⟨0⟩ { tinyParams with detection_rate := 0 }
        0 2 = some ⟨[1, 1], 1, 1, 1, 1⟩ ∧
    ((⟨[1, 1], 1, 1, 1, 1⟩ : SimResult).cvar_95 =
      listMean ((⟨[1, 1], 1, 1, 1, 1⟩ : SimResult).losses.filter
        (fun x => decide ((⟨[1, 1], 1, 1, 1, 1⟩ : SimResult).var_95 ≤ x))) ∧
     ((⟨[1, 1], 1, 1, 1, 1⟩ : SimResult).losses.filter
        (fun x => decide ((⟨[1, 1], 1, 1, 1, 1⟩ : SimResult).var_95 ≤ x)) =
          [] →
      (⟨[1, 1], 1, 1, 1, 1⟩ : SimResult).cvar_95 =
        (⟨[1, 1], 1, 1, 1, 1⟩ : SimResult).var_95)) :=
  ⟨by with_unfolding_all decide,
   @claim_C3_cvar_is_tail_mean simpleEnv ⟨0⟩
     { tinyParams with detection_rate := 0 } 0 2 ⟨[1, 1], 1, 1, 1, 1⟩
     (by with_unfolding_all decide)⟩

/-- C4 witness: `cvar_95 ≥ var_95` instantiated at a concrete run with
three paths of loss `1` each. -/
theorem claim_C4_witness :
    run_monte_carlo simpleEnv ⟨0⟩ { tinyParams with detection_rate := 0 }
        0 3 = some ⟨[1, 1, 1], 1, 1, 1, 1⟩ ∧
    (⟨[1, 1, 1], 1, 1, 1, 1⟩ : SimResult).var_95 ≤
      (⟨[1, 1, 1], 1, 1, 1, 1⟩ : SimResult).cvar_95 :=
  ⟨by with_unfolding_all decide,
   @claim_C4_cvar_ge_var simpleEnv ⟨0⟩
     { tinyParams with detection_rate := 0 } 0 3 ⟨[1, 1, 1], 1, 1, 1, 1⟩
     (by with_unfolding_all decide)⟩

/-- C7 witness: the sortedness of the bars of a concrete `tornado_data`
run with `perturb = 1/5` on a small parameter set. -/
theorem claim_C7_witness :
    (0 : ℚ) < 1 / 5 ∧ (1 / 5 : ℚ) < 1 ∧
    List.Chain' (fun a b : Bar => barKey b ≤ barKey a)
      [(PKey.base_fraud_rate, (0 : ℚ), (0 : ℚ)),
       (PKey.detection_rate, 0, 0), (PKey.sev_sigma, 0, 0)] := by
  refine ⟨by norm_num, by norm_num, ?_⟩
  exact @claim_C7_bars_sorted simpleEnv ⟨0⟩
    [{ tinyParams with detection_rate := 0 }] 0 0 2 (1 / 5)
    ((1, [(PKey.base_fraud_rate, 0, 0), (PKey.detection_rate, 0, 0),
          (PKey.sev_sigma, 0, 0)]),
     [{ tinyParams with detection_rate := 0 },
      { tinyParams with detection_rate := 0, base_fraud_rate := 2 / 5 },
      { tinyParams with detection_rate := 0, base_fraud_rate := 3 / 5 },
      { tinyParams with detection_rate := 0 },
      { tinyParams with detection_rate := 0 },
      { tinyParams with detection_rate := 0, sev_sigma := 4 / 5 },
      { tinyParams with detection_rate := 0, sev_sigma := 6 / 5 }])
    (by norm_num) (by norm_num) (by with_unfolding_all decide)

/-- C8 witness: the record count and per-parameter stratum multiset of a
concrete `lhs_samples` call with two ranges and two samples. -/
theorem claim_C8_witness :
    (0 : ℕ) < 2 ∧
    (lhs_samples simpleEnv [("a", 0, 1), ("b", 2, 4)] 2 0).length = 2 ∧
    ((lhs_samples simpleEnv [("a", 0, 1), ("b", 2, 4)] 2 0).map
        (fun rec => (rec.getD 0 ("", 0)).2)).Perm
      ((List.range 2).map (fun j : ℕ =>
        (0 : ℚ) + ((2 * (j : ℚ) + 1) / (2 * ((2 : ℕ) : ℚ))) *
          ((1 : ℚ) - (0 : ℚ)))) := by
  have happ := claim_C8_lhs_stratified simpleEnv [("a", 0, 1), ("b", 2, 4)]
    2 0 0 (by norm_num) (by norm_num)
  exact ⟨by norm_num, happ.1, happ.2.2.1⟩

/-- C10 witness: a concrete `tornado_data` run leaves the caller's
dictionary untouched in the store. -/
theorem claim_C10_witness :
    (((1 : ℚ), [((PKey.base_fraud_rate : PKey), (0 : ℚ), (0 : ℚ)),
        (PKey.detection_rate, 0, 0), (PKey.sev_sigma, 0, 0)]),
      ([{ tinyParams with detection_rate := 0 },
        { tinyParams with detection_rate := 0, base_fraud_rate := 2 / 5 },
        { tinyParams with detection_rate := 0, base_fraud_rate := 3 / 5 },
        { tinyParams with detection_rate := 0 },
        { tinyParams with detection_rate := 0 },
        { tinyParams with detection_rate := 0, sev_sigma := 4 / 5 },
        { tinyParams with detection_rate := 0, sev_sigma := 6 / 5 }] :
        Store)).2[0]? =
      ([{ tinyParams with detection_rate := 0 }] : Store)[0]? ∧
    ∀ r < ([{ tinyParams with detection_rate := 0 }] : Store).length,
      (((1 : ℚ), [((PKey.base_fraud_rate : PKey), (0 : ℚ), (0 : ℚ)),
          (PKey.detection_rate, 0, 0), (PKey.sev_sigma, 0, 0)]),
        ([{ tinyParams with detection_rate := 0 },
          { tinyParams with detection_rate := 0, base_fraud_rate := 2 / 5 },
          { tinyParams with detection_rate := 0, base_fraud_rate := 3 / 5 },
          { tinyParams with detection_rate := 0 },
          { tinyParams with detection_rate := 0 },
          { tinyParams with detection_rate := 0, sev_sigma := 4 / 5 },
          { tinyParams with detection_rate := 0, sev_sigma := 6 / 5 }] :
          Store)).2[r]? =
        ([{ tinyParams with detection_rate := 0 }] : Store)[r]? :=
  @claim_C10_params_unchanged simpleEnv ⟨0⟩
    [{ tinyParams with detection_rate := 0 }] 0 0 2 (1 / 5)
    (((1 : ℚ), [((PKey.base_fraud_rate : PKey), (0 : ℚ), (0 : ℚ)),
        (PKey.detection_rate, 0, 0), (PKey.sev_sigma, 0, 0)]),
      ([{ tinyParams with detection_rate := 0 },
        { tinyParams with detection_rate := 0, base_fraud_rate := 2 / 5 },
        { tinyParams with detection_rate := 0, base_fraud_rate := 3 / 5 },
        { tinyParams with detection_rate := 0 },
        { tinyParams with detection_rate := 0 },
        { tinyParams with detection_rate := 0, sev_sigma := 4 / 5 },
        { tinyParams with detection_rate := 0, sev_sigma := 6 / 5 }] :
        Store))
    (by with_unfolding_all decide)
